import Mathlib

set_option maxRecDepth 8192

/-!
Verification of the `inferb` cache-timing inference program (src/main.c).

The C program is shallowly embedded as follows.

* The tunable constants (`SPACING`, `ITERATIONS`, `RETRIES_IF_ZERO`,
  `CACHE_LINE_SIZE`, `NUM_CACHE_LINES`, `ARRAY_SIZE`) are the `#define`s of
  the source, as natural numbers.
* `double` timing arithmetic is modelled exactly over `ℚ`; the C constant
  `DBL_MAX`, which is strictly larger than every timing value the program can
  produce, is modelled as `⊤` in `WithTop ℚ`.
* `uint64_t` tick counts are naturals together with explicit `% 2 ^ 64`
  wrap-around where the code performs `uint64_t` subtraction.
* `uint8_t` bytes are `Fin 256`; byte-addressable caller memory is a function
  `ℕ → Fin 256`.
* The hardware timing measured by a `startTimer`/`timeElapsed` pair around a
  probe access is not determined by the program text, so each measured elapsed
  value is drawn from an oracle `Env.time attempt iteration slot`, and each
  `malloc` result from an oracle `Env.alloc attempt iteration` (`none` models
  a `NULL` return; the code performs no check on it, and `(uint64_t)NULL = 0`,
  so a failed allocation is used as base address `0`).
* The memory operations that `inferb` performs on the flat address space are
  recorded in an event trace (`MemEvent`).  The accumulator array `sum` is a
  fresh `calloc` allocation used only through its own pointer, disjoint from
  every caller-visible object by C allocation semantics; its numeric contents
  are modelled as the `RunResult.sum` state component, and stores to it are
  recorded as `writeSum` events.
-/

namespace Inferb

/-- `#define VALUE (42)` — the byte placed in memory by the harness. -/
def VALUE : ℕ := 42

/-- `#define SPACING (16 * 1024)` — distance in bytes between probe slots. -/
def SPACING : ℕ := 16 * 1024

/-- `#define ITERATIONS (20)` — measurement iterations per attempt. -/
def ITERATIONS : ℕ := 20

/-- `#define RETRIES_IF_ZERO (50)` — retry ceiling on a zero decision. -/
def RETRIES_IF_ZERO : ℕ := 50

/-- `#define CACHE_LINE_SIZE (64)`. -/
def CACHE_LINE_SIZE : ℕ := 64

/-- `UINT8_MAX` from `<stdint.h>`. -/
def UINT8_MAX : ℕ := 255

/-- `#define NUM_CACHE_LINES (UINT8_MAX + 1)`. -/
def NUM_CACHE_LINES : ℕ := UINT8_MAX + 1

/-- `sizeof(cache_line_t)`: one `uint8_t cacheLine` field plus
`uint8_t padding[SPACING - 1]`. -/
def sizeof_cache_line_t : ℕ := 1 + (SPACING - 1)

/-- `#define ARRAY_SIZE (NUM_CACHE_LINES * sizeof(cache_line_t))`. -/
def ARRAY_SIZE : ℕ := NUM_CACHE_LINES * sizeof_cache_line_t

/-- `2 ^ 64`, the modulus of `uint64_t` arithmetic. -/
def UINT64_MOD : ℕ := 2 ^ 64

/-! ### High resolution timer (`struct timer`, `startTimer`, `timeElapsed`) -/

/-- `struct timer`: a start tick count (`uint64_t`, Mach absolute time units)
and a tick→nanosecond conversion rate (`double`). -/
structure timer where
  start : ℕ
  rate : ℚ

/-- `startTimer()`: captures the current tick count and the rate
`(double)tbi.numer / tbi.denom` obtained from `mach_timebase_info`. -/
def startTimer (now numer denom : ℕ) : timer :=
  { start := now, rate := (numer : ℚ) / (denom : ℚ) }

/-- `timeElapsed(t)`: `(mach_absolute_time() - t->start) * t->rate`.  The
subtraction is performed on `uint64_t`, hence the explicit `% 2 ^ 64`
wrap-around (`now + 2 ^ 64 - start` agrees with two's-complement subtraction
for `now, start < 2 ^ 64`). -/
def timeElapsed (t : timer) (now : ℕ) : ℚ :=
  (((now + UINT64_MOD - t.start) % UINT64_MOD : ℕ) : ℚ) * t.rate

/-- `timeElapsed` takes `const timer_t *t` and performs no store through it:
the query returns the elapsed value together with the (unchanged) handle. -/
def timeElapsedQ (t : timer) (now : ℕ) : ℚ × timer :=
  (timeElapsed t now, t)

/-! ### Probe array layout (`cache_line_t`, `NUM_CACHE_LINES`) -/

/-- Address of `&array[i].cacheLine`, the distinguishing (first) byte of probe
slot `i`, for an array allocated at `base`. -/
def slotAddr (base i : ℕ) : ℕ := base + i * sizeof_cache_line_t

/-- The addresses of the distinguishing bytes of all `NUM_CACHE_LINES` slots. -/
def probeSlotAddrs (base : ℕ) : List ℕ :=
  (List.range NUM_CACHE_LINES).map (slotAddr base)

/-- The byte range occupied by probe slot `i` (`array[i]` through the start of
`array[i+1]`). -/
def slotBytes (base i : ℕ) : Set ℕ := Set.Ico (slotAddr base i) (slotAddr base (i + 1))

/-- Index of the cache line containing byte address `a`. -/
def cacheLineIndex (a : ℕ) : ℕ := a / CACHE_LINE_SIZE

/-! ### Memory event traces -/

/-- One memory operation performed by `inferb` on the flat address space.
`readMem a` is a data load of the byte at `a`; `writeMem a v` is a data store
(the embedding emits one for every store the C code performs through a
pointer into caller-visible memory — `inferb` performs none); `flushRange b n`
is `flush_cache_relaxed` (`DC CIVAC` over `[b, b+n)`): it writes back dirty
lines but does not change memory contents; `writeSum i` is the store
`sum[i] += …` into the private `calloc`d accumulator (its numeric content is
carried in `RunResult.sum`). -/
inductive MemEvent where
  | readMem : ℕ → MemEvent
  | writeMem : ℕ → Fin 256 → MemEvent
  | flushRange : ℕ → ℕ → MemEvent
  | writeSum : ℕ → MemEvent
deriving DecidableEq

/-- Does the event store to the flat (caller-visible) address space? -/
def isMemWrite : MemEvent → Bool
  | MemEvent.writeMem _ _ => true
  | _ => false

/-- Effect of one event on the byte contents of the flat address space. -/
def applyEvent (m : ℕ → Fin 256) : MemEvent → (ℕ → Fin 256)
  | MemEvent.writeMem a v => fun x => if x = a then v else m x
  | _ => m

/-- Byte contents of the flat address space after a trace of events. -/
def runTrace (m : ℕ → Fin 256) (tr : List MemEvent) : ℕ → Fin 256 :=
  tr.foldl applyEvent m

/-! ### The inference engine (`inferb`) -/

/-- The measurement oracle.  `time t iter i` is the value `timeElapsed`
returns for the timed access to `array[i]` in iteration `iter` of attempt `t`
(the hardware-determined quantity the program measures); `alloc t iter` is
the `malloc` result for that iteration's probe array (`some base`, or `none`
for a `NULL` return). -/
structure Env where
  time : ℕ → ℕ → ℕ → ℚ
  alloc : ℕ → ℕ → Option ℕ

/-- Numeric address of a `malloc` result: `(uint64_t)NULL` is `0`. -/
def baseOf : Option ℕ → ℕ
  | some b => b
  | none => 0

/-- The memory events of one measurement iteration, in program order:
flush the probe array (`flush_cache_relaxed(array, ARRAY_SIZE)`); read the
secret byte and touch its slot (`array[*addr].cacheLine`); then for each
`i < NUM_CACHE_LINES` read `array[i].cacheLine` and add the measured time
into `sum[i]`. -/
def iterEvents (base addr : ℕ) (secret : Fin 256) : List MemEvent :=
  MemEvent.flushRange base ARRAY_SIZE ::
  MemEvent.readMem addr ::
  MemEvent.readMem ((probeSlotAddrs base).getD secret.val 0) ::
  (List.range NUM_CACHE_LINES).flatMap
    (fun i => [MemEvent.readMem (slotAddr base i), MemEvent.writeSum i])

/-- The accumulator contents after the `ITERATIONS` measurement iterations of
attempt `t`, starting from contents `s`: each iteration adds the measured
elapsed time of every slot into that slot's entry. -/
def attemptSum (env : Env) (t : ℕ) (s : ℕ → ℚ) : ℕ → ℚ :=
  (List.range ITERATIONS).foldl (fun s2 iter => fun i => s2 i + env.time t iter i) s

/-- The memory events of attempt `t`: `ITERATIONS` iterations, each on a
freshly allocated probe array. -/
def attemptTrace (env : Env) (t addr : ℕ) (secret : Fin 256) : List MemEvent :=
  (List.range ITERATIONS).flatMap
    (fun iter => iterEvents (baseOf (env.alloc t iter)) addr secret)

/-- One step of the decision scan
`if (sum[i] < best) { bestIndex = i; best = sum[i]; }`. -/
def scanStep (s : ℕ → ℚ) (st : ℕ × WithTop ℚ) (i : ℕ) : ℕ × WithTop ℚ :=
  if (s i : WithTop ℚ) < st.2 then (i, (s i : WithTop ℚ)) else st

/-- The decision scan: `best` starts at `DBL_MAX` (modelled `⊤`), `bestIndex`
starts at whatever value the variable currently holds (`prev`), and every
`i < NUM_CACHE_LINES` is scanned in order. -/
def bestScan (s : ℕ → ℚ) (prev : ℕ) : ℕ × WithTop ℚ :=
  (List.range NUM_CACHE_LINES).foldl (scanStep s) (prev, (⊤ : WithTop ℚ))

/-- The `bestIndex` value after the decision scan of a sample vector `s`. -/
def bestIndexOf (prev : ℕ) (s : ℕ → ℚ) : ℕ := (bestScan s prev).1

/-- Result of a run of `inferb`: the returned `bestIndex`, the number of
attempts (iterations of the retry loop) performed, the final accumulator
contents, and the memory event trace. -/
structure RunResult where
  bestIndex : ℕ
  attempts : ℕ
  sum : ℕ → ℚ
  trace : List MemEvent

/-- The retry loop of `inferb`, counting down the remaining loop bound
(`fuel` = `RETRIES_IF_ZERO - try`).  Each attempt runs the `ITERATIONS`
measurement iterations (accumulating into `s`, which is NOT re-zeroed here —
the C code `calloc`s `sum` once, outside this loop), scans for the fastest
slot, and exits early on a non-zero decision. -/
def inferbAux (env : Env) (addr : ℕ) (secret : Fin 256) (bi t : ℕ) (s : ℕ → ℚ) :
    ℕ → RunResult
  | 0 => ⟨bi, 0, s, []⟩
  | fuel + 1 =>
    if bestIndexOf bi (attemptSum env t s) ≠ 0 then
      ⟨bestIndexOf bi (attemptSum env t s), 1, attemptSum env t s,
        attemptTrace env t addr secret⟩
    else
      ⟨(inferbAux env addr secret (bestIndexOf bi (attemptSum env t s)) (t + 1)
          (attemptSum env t s) fuel).bestIndex,
        (inferbAux env addr secret (bestIndexOf bi (attemptSum env t s)) (t + 1)
          (attemptSum env t s) fuel).attempts + 1,
        (inferbAux env addr secret (bestIndexOf bi (attemptSum env t s)) (t + 1)
          (attemptSum env t s) fuel).sum,
        attemptTrace env t addr secret ++
          (inferbAux env addr secret (bestIndexOf bi (attemptSum env t s)) (t + 1)
            (attemptSum env t s) fuel).trace⟩

/-- `uint8_t inferb(uint8_t *addr)`: `sum` is `calloc`ed to all zeroes once;
`bestIndex` is uninitialised (modelled `0`; it is overwritten during the
first attempt's scan before ever being read, see `bestIndexOf_prev_irrel`);
then the retry loop runs up to `RETRIES_IF_ZERO` attempts. -/
def inferb (env : Env) (addr : ℕ) (mem : ℕ → Fin 256) : RunResult :=
  inferbAux env addr (mem addr) 0 0 (fun _ => 0) RETRIES_IF_ZERO

/-- Contents of the accumulator vector at the start of attempt `k`
(equivalently, after attempts `0 … k-1` have run their iterations). -/
def sumThrough (env : Env) (k : ℕ) : ℕ → ℚ :=
  (List.range k).foldl (fun s t => attemptSum env t s) (fun _ => 0)

/-- The decision produced by the scan at the end of attempt `k`. -/
def decisionAt (env : Env) (k : ℕ) : ℕ := bestIndexOf 0 (sumThrough env (k + 1))

/-! ### Concrete oracles used as witnesses and counterexamples -/

/-- A timing oracle on which slot `0` is always (weakly) fastest, so every
attempt decides `0`. -/
def timeZero : ℕ → ℕ → ℕ → ℚ := fun _ _ i => if i = 0 then 0 else 1

/-- Environment with `timeZero` measurements and succeeding allocations. -/
def envZero : Env := ⟨timeZero, fun _ _ => some 4096⟩

/-- Environment with `timeZero` measurements whose every allocation fails. -/
def envFail : Env := ⟨timeZero, fun _ _ => none⟩

/-- A timing oracle whose attempt `0` decides `0` and whose attempt `1`
(on the accumulated sums) decides `200`. -/
def time4 : ℕ → ℕ → ℕ → ℚ := fun t _ i =>
  if t = 0 then (if i = 0 then 0 else 1)
  else if i = 200 then 0 else if i = 0 then 2 else 1

/-- Environment for the early-exit witness. -/
def env4 : Env := ⟨time4, fun _ _ => some 4096⟩

/-- Caller memory holding byte `42` everywhere. -/
def memC : ℕ → Fin 256 := fun _ => (42 : Fin 256)

/-- A sample vector exactly tied at the global minimum on slots `5` and `9`. -/
def s59 : ℕ → ℚ := fun j => if j = 5 ∨ j = 9 then 0 else 1

/-! ### Characterisation of the decision scan -/

/-- Invariant of the decision scan over the first `n` indices: the state is
the first-seen strict minimum of the scanned prefix. -/
lemma bestScan_range_spec (s : ℕ → ℚ) (prev : ℕ) :
    ∀ n, 0 < n →
      ∃ m, (List.range n).foldl (scanStep s) (prev, (⊤ : WithTop ℚ)) = (m, (s m : WithTop ℚ)) ∧
        m < n ∧ (∀ j, j < n → s m ≤ s j) ∧ (∀ j, j < n → s j = s m → m ≤ j) := by
  intro n
  induction n with
  | zero => intro h; omega
  | succ n ih =>
    intro _
    rcases Nat.eq_zero_or_pos n with h0 | hpos
    · subst h0
      refine ⟨0, ?_, by omega, ?_, ?_⟩
      · show (List.range 1).foldl (scanStep s) (prev, ⊤) = _
        have h1 : List.range 1 = [0] := rfl
        rw [h1]
        simp [scanStep, WithTop.coe_lt_top]
      · intro j hj
        have : j = 0 := by omega
        subst this; exact le_refl _
      · intro j _ _; omega
    · obtain ⟨m, hm, hlt, hmin, htie⟩ := ih hpos
      rw [List.range_succ, List.foldl_append, hm]
      by_cases hc : (s n : WithTop ℚ) < (s m : WithTop ℚ)
      · have hc' : s n < s m := WithTop.coe_lt_coe.mp hc
        refine ⟨n, ?_, by omega, ?_, ?_⟩
        · simp [scanStep, hc]
        · intro j hj
          rcases Nat.lt_succ_iff_lt_or_eq.mp hj with hj' | hj'
          · exact le_of_lt (lt_of_lt_of_le hc' (hmin j hj'))
          · subst hj'; exact le_refl _
        · intro j hj hje
          rcases Nat.lt_succ_iff_lt_or_eq.mp hj with hj' | hj'
          · exact absurd hje (ne_of_gt (lt_of_lt_of_le hc' (hmin j hj')))
          · omega
      · have hc' : s m ≤ s n := WithTop.coe_le_coe.mp (not_lt.mp hc)
        refine ⟨m, ?_, by omega, ?_, ?_⟩
        · simp [scanStep, hc]
        · intro j hj
          rcases Nat.lt_succ_iff_lt_or_eq.mp hj with hj' | hj'
          · exact hmin j hj'
          · subst hj'; exact hc'
        · intro j hj hje
          rcases Nat.lt_succ_iff_lt_or_eq.mp hj with hj' | hj'
          · exact htie j hj' hje
          · omega

/-- The scanned `bestIndex` is in range, attains the minimum of the sample
vector, and is the lowest index attaining it. -/
lemma bestIndexOf_spec (prev : ℕ) (s : ℕ → ℚ) :
    bestIndexOf prev s < NUM_CACHE_LINES ∧
    (∀ j, j < NUM_CACHE_LINES → s (bestIndexOf prev s) ≤ s j) ∧
    (∀ j, j < NUM_CACHE_LINES → s j = s (bestIndexOf prev s) → bestIndexOf prev s ≤ j) := by
  obtain ⟨m, hm, hlt, hmin, htie⟩ :=
    bestScan_range_spec s prev NUM_CACHE_LINES (by norm_num [NUM_CACHE_LINES, UINT8_MAX])
  have hb : bestIndexOf prev s = m := by
    unfold bestIndexOf bestScan
    rw [hm]
  rw [hb]
  exact ⟨hlt, hmin, htie⟩

/-- Uniqueness: any in-range lowest minimiser is the scan result. -/
lemma bestIndexOf_eq_of (prev m : ℕ) (s : ℕ → ℚ) (hm : m < NUM_CACHE_LINES)
    (hmin : ∀ j, j < NUM_CACHE_LINES → s m ≤ s j)
    (htie : ∀ j, j < NUM_CACHE_LINES → s j = s m → m ≤ j) :
    bestIndexOf prev s = m := by
  obtain ⟨hb, hbmin, hbtie⟩ := bestIndexOf_spec prev s
  have h1 : s (bestIndexOf prev s) ≤ s m := hbmin m hm
  have h2 : s m ≤ s (bestIndexOf prev s) := hmin (bestIndexOf prev s) hb
  have he : s (bestIndexOf prev s) = s m := le_antisymm h1 h2
  have hbm : bestIndexOf prev s ≤ m := hbtie m hm he.symm
  have hmb : m ≤ bestIndexOf prev s := htie (bestIndexOf prev s) hb he
  omega

/-- The initial `bestIndex` value (uninitialised in the C code) never affects
the scan result: slot `0`'s sum is below `DBL_MAX`, so the first loop
iteration always overwrites it. -/
lemma bestIndexOf_prev_irrel (p q : ℕ) (s : ℕ → ℚ) : bestIndexOf p s = bestIndexOf q s := by
  obtain ⟨hb, hmin, htie⟩ := bestIndexOf_spec q s
  exact bestIndexOf_eq_of p (bestIndexOf q s) s hb hmin htie

/-! ### Closed forms for the accumulator -/

/-- Pointwise closed form of a fold that adds `h x ·` into the accumulator
for each list element `x`. -/
lemma foldl_addf_apply (h : ℕ → ℕ → ℚ) :
    ∀ (l : List ℕ) (s : ℕ → ℚ) (i : ℕ),
      (l.foldl (fun s2 x => fun j => s2 j + h x j) s) i
        = s i + (l.map (fun x => h x i)).sum := by
  intro l
  induction l with
  | nil => intro s i; simp
  | cons a l ih =>
    intro s i
    rw [List.foldl_cons, ih, List.map_cons, List.sum_cons]
    ring

/-- Entry `i` after attempt `t`'s iterations: the starting entry plus the sum
of that attempt's measured times for slot `i`. -/
lemma attemptSum_apply (env : Env) (t : ℕ) (s : ℕ → ℚ) (i : ℕ) :
    attemptSum env t s i
      = s i + ((List.range ITERATIONS).map (fun iter => env.time t iter i)).sum :=
  foldl_addf_apply (env.time t) (List.range ITERATIONS) s i

/-- Unfolding one attempt of the accumulated sums. -/
lemma sumThrough_succ (env : Env) (k : ℕ) :
    sumThrough env (k + 1) = attemptSum env k (sumThrough env k) := by
  unfold sumThrough
  rw [List.range_succ, List.foldl_append, List.foldl_cons, List.foldl_nil]

/-- Full closed form: entry `i` at the start of attempt `k` is the total of
all measured times for slot `i` over all earlier attempts and iterations. -/
lemma sumThrough_apply (env : Env) :
    ∀ k i, sumThrough env k i
      = ((List.range k).map
          (fun t => ((List.range ITERATIONS).map (fun iter => env.time t iter i)).sum)).sum := by
  intro k
  induction k with
  | zero => intro i; simp [sumThrough]
  | succ k ih =>
    intro i
    rw [sumThrough_succ, attemptSum_apply, ih, List.range_succ, List.map_append,
      List.sum_append, List.map_cons, List.sum_cons, List.map_nil, List.sum_nil, add_zero]

/-- Summing a constant over a list. -/
lemma list_sum_const (l : List ℕ) (c : ℚ) : (l.map (fun _ => c)).sum = l.length * c := by
  induction l with
  | nil => simp
  | cons a l ih =>
    rw [List.map_cons, List.sum_cons, ih, List.length_cons]
    push_cast
    ring

/-! ### Behaviour of the retry loop -/

/-- The loop body performs at most one attempt per unit of remaining bound. -/
lemma inferbAux_attempts_le (env : Env) (addr : ℕ) (secret : Fin 256) :
    ∀ fuel bi t s, (inferbAux env addr secret bi t s fuel).attempts ≤ fuel := by
  intro fuel
  induction fuel with
  | zero => intro bi t s; simp [inferbAux]
  | succ fuel ih =>
    intro bi t s
    rw [inferbAux]
    split
    · simp
    · simpa using ih (bestIndexOf bi (attemptSum env t s)) (t + 1) (attemptSum env t s)

/-- The loop performs at least one attempt when the bound is positive. -/
lemma inferbAux_attempts_pos (env : Env) (addr : ℕ) (secret : Fin 256)
    (fuel bi t : ℕ) (s : ℕ → ℚ) :
    1 ≤ (inferbAux env addr secret bi t s (fuel + 1)).attempts := by
  rw [inferbAux]
  split <;> simp

/-- The returned `bestIndex` stays in range, given an in-range initial value. -/
lemma inferbAux_bestIndex_lt (env : Env) (addr : ℕ) (secret : Fin 256) :
    ∀ fuel bi t s, bi < NUM_CACHE_LINES →
      (inferbAux env addr secret bi t s fuel).bestIndex < NUM_CACHE_LINES := by
  intro fuel
  induction fuel with
  | zero => intro bi t s hbi; simpa [inferbAux] using hbi
  | succ fuel ih =>
    intro bi t s hbi
    rw [inferbAux]
    split
    · exact (bestIndexOf_spec bi (attemptSum env t s)).1
    · exact ih _ (t + 1) (attemptSum env t s) (bestIndexOf_spec bi (attemptSum env t s)).1

/-- If every attempt within the remaining bound decides `0`, the loop runs
through the whole bound and ends holding decision `0` (or, with no bound
left, the incoming `bestIndex`). -/
lemma inferbAux_all_zero (env : Env) (addr : ℕ) (secret : Fin 256) :
    ∀ fuel t bi, (∀ j, j < fuel → decisionAt env (t + j) = 0) →
      (inferbAux env addr secret bi t (sumThrough env t) fuel).attempts = fuel ∧
      (inferbAux env addr secret bi t (sumThrough env t) fuel).bestIndex
        = (if fuel = 0 then bi else 0) := by
  intro fuel
  induction fuel with
  | zero => intro t bi _; simp [inferbAux]
  | succ fuel ih =>
    intro t bi h
    have hd : bestIndexOf bi (attemptSum env t (sumThrough env t)) = 0 := by
      rw [← sumThrough_succ, bestIndexOf_prev_irrel bi 0]
      have := h 0 (by omega)
      simpa [decisionAt] using this
    rw [inferbAux]
    rw [if_neg (by simp [hd])]
    have hrec := ih (t + 1) (bestIndexOf bi (attemptSum env t (sumThrough env t)))
      (fun j hj => by
        have := h (j + 1) (by omega)
        rw [← this]
        congr 1
        omega)
    rw [← sumThrough_succ] at hrec
    rw [← sumThrough_succ]
    refine ⟨by simp [hrec.1], ?_⟩
    simp only [Nat.succ_ne_zero, if_false]
    rw [hrec.2]
    rw [← sumThrough_succ] at hd
    split
    · exact hd
    · rfl

/-- The initial accumulator of `inferb` is the all-zero vector, i.e. the
accumulated sums through `0` attempts. -/
lemma inferb_eq (env : Env) (addr : ℕ) (mem : ℕ → Fin 256) :
    inferb env addr mem
      = inferbAux env addr (mem addr) 0 0 (sumThrough env 0) RETRIES_IF_ZERO := rfl

/-- If attempts `t … t+j-1` decide `0` and attempt `t+j` decides a non-zero
value, the loop returns that value after exactly `j + 1` attempts. -/
lemma inferbAux_first_nonzero (env : Env) (addr : ℕ) (secret : Fin 256) :
    ∀ j fuel t bi, j < fuel → (∀ i, i < j → decisionAt env (t + i) = 0) →
      decisionAt env (t + j) ≠ 0 →
      (inferbAux env addr secret bi t (sumThrough env t) fuel).bestIndex
        = decisionAt env (t + j) ∧
      (inferbAux env addr secret bi t (sumThrough env t) fuel).attempts = j + 1 := by
  intro j
  induction j with
  | zero =>
    intro fuel t bi hj _ hnz
    obtain ⟨fuel, rfl⟩ : ∃ f, fuel = f + 1 := ⟨fuel - 1, by omega⟩
    have hd : bestIndexOf bi (attemptSum env t (sumThrough env t)) = decisionAt env (t + 0) := by
      rw [← sumThrough_succ, bestIndexOf_prev_irrel bi 0]
      rfl
    rw [inferbAux, if_pos (by rw [hd]; exact hnz)]
    exact ⟨hd, rfl⟩
  | succ j ih =>
    intro fuel t bi hj hz hnz
    obtain ⟨fuel, rfl⟩ : ∃ f, fuel = f + 1 := ⟨fuel - 1, by omega⟩
    have hd : bestIndexOf bi (attemptSum env t (sumThrough env t)) = 0 := by
      rw [← sumThrough_succ, bestIndexOf_prev_irrel bi 0]
      have := hz 0 (by omega)
      simpa [decisionAt] using this
    rw [inferbAux, if_neg (by simp [hd])]
    have hrec := ih fuel (t + 1) (bestIndexOf bi (attemptSum env t (sumThrough env t)))
      (by omega)
      (fun i hi => by
        have := hz (i + 1) (by omega)
        rw [← this]
        congr 1
        omega)
      (by
        have : t + 1 + j = t + (j + 1) := by omega
        rw [this]
        exact hnz)
    rw [← sumThrough_succ] at hrec
    rw [← sumThrough_succ]
    have harg : t + 1 + j = t + (j + 1) := by omega
    rw [harg] at hrec
    exact ⟨by simp [hrec.1], by simp [hrec.2]⟩

/-! ### Traces contain no store to caller-visible memory -/

/-- No event of a measurement iteration stores to the flat address space. -/
lemma iterEvents_no_memwrite (base addr : ℕ) (secret : Fin 256) :
    (iterEvents base addr secret).all (fun e => !(isMemWrite e)) = true := by
  rw [List.all_eq_true]
  intro e he
  simp only [iterEvents, List.mem_cons, List.mem_flatMap, List.mem_range,
    List.mem_singleton] at he
  rcases he with rfl | rfl | rfl | ⟨i, _, hi⟩
  · rfl
  · rfl
  · rfl
  · rcases hi with rfl | rfl | h
    · rfl
    · rfl
    · simp at h

/-- No event of an attempt stores to the flat address space. -/
lemma attemptTrace_no_memwrite (env : Env) (t addr : ℕ) (secret : Fin 256) :
    (attemptTrace env t addr secret).all (fun e => !(isMemWrite e)) = true := by
  rw [List.all_eq_true]
  intro e he
  simp only [attemptTrace, List.mem_flatMap, List.mem_range] at he
  obtain ⟨iter, _, hmem⟩ := he
  exact List.all_eq_true.mp (iterEvents_no_memwrite _ addr secret) e hmem

/-- No event of the whole retry loop stores to the flat address space. -/
lemma inferbAux_trace_no_memwrite (env : Env) (addr : ℕ) (secret : Fin 256) :
    ∀ fuel bi t s,
      ((inferbAux env addr secret bi t s fuel).trace).all (fun e => !(isMemWrite e)) = true := by
  intro fuel
  induction fuel with
  | zero => intro bi t s; rfl
  | succ fuel ih =>
    intro bi t s
    rw [inferbAux]
    split
    · exact attemptTrace_no_memwrite env t addr secret
    · show (attemptTrace env t addr secret ++ _).all _ = true
      rw [List.all_append, Bool.and_eq_true]
      exact ⟨attemptTrace_no_memwrite env t addr secret, ih _ _ _⟩

/-- A trace without stores to the flat address space leaves it unchanged. -/
lemma runTrace_no_memwrite :
    ∀ (tr : List MemEvent) (m : ℕ → Fin 256),
      tr.all (fun e => !(isMemWrite e)) = true → runTrace m tr = m := by
  intro tr
  induction tr with
  | nil => intro m _; rfl
  | cons e tr ih =>
    intro m h
    rw [List.all_cons, Bool.and_eq_true] at h
    have he : applyEvent m e = m := by
      cases e with
      | readMem a => rfl
      | writeMem a v => simp [isMemWrite] at h
      | flushRange a n => rfl
      | writeSum i => rfl
    show runTrace (applyEvent m e) tr = m
    rw [he]
    exact ih m h.2

/-- The first memory event of every attempt is the cache flush of that
attempt's first probe-array allocation. -/
lemma attemptTrace_head (env : Env) (t addr : ℕ) (secret : Fin 256) :
    (attemptTrace env t addr secret).head?
      = some (MemEvent.flushRange (baseOf (env.alloc t 0)) ARRAY_SIZE) := by
  have h20 : List.range ITERATIONS = 0 :: (List.range 19).map Nat.succ :=
    List.range_succ_eq_map 19
  rw [attemptTrace, h20]
  simp [iterEvents]

/-- The first memory event of a run with a positive retry bound. -/
lemma inferbAux_trace_head (env : Env) (addr : ℕ) (secret : Fin 256)
    (fuel bi t : ℕ) (s : ℕ → ℚ) :
    ((inferbAux env addr secret bi t s (fuel + 1)).trace).head?
      = some (MemEvent.flushRange (baseOf (env.alloc t 0)) ARRAY_SIZE) := by
  rw [inferbAux]
  split
  · exact attemptTrace_head env t addr secret
  · show (attemptTrace env t addr secret ++ _).head? = _
    rw [List.head?_append, attemptTrace_head]
    rfl

/-! ### Decisions of the concrete oracles -/

/-- Accumulated sums under the `timeZero` oracle. -/
lemma sumThrough_timeZero (env : Env) (ht : env.time = timeZero) (k i : ℕ) :
    sumThrough env k i = if i = 0 then 0 else (k : ℚ) * 20 := by
  rw [sumThrough_apply, ht]
  by_cases hi : i = 0
  · subst hi
    have h1 : (fun t => ((List.range ITERATIONS).map (fun iter => timeZero t iter 0)).sum)
        = fun _ => (0 : ℚ) := by
      funext t
      have h2 : (fun iter => timeZero t iter 0) = fun _ => (0 : ℚ) := by
        funext iter; simp [timeZero]
      rw [h2, list_sum_const, mul_zero]
    rw [h1, list_sum_const, mul_zero, if_pos rfl]
  · have h1 : (fun t => ((List.range ITERATIONS).map (fun iter => timeZero t iter i)).sum)
        = fun _ => (20 : ℚ) := by
      funext t
      have h2 : (fun iter => timeZero t iter i) = fun _ => (1 : ℚ) := by
        funext iter; simp [timeZero, hi]
      rw [h2, list_sum_const]
      simp [ITERATIONS]
    rw [h1, list_sum_const, if_neg hi]
    simp

/-- Every attempt decides `0` under the `timeZero` oracle. -/
lemma decisionAt_timeZero (env : Env) (ht : env.time = timeZero) (k : ℕ) :
    decisionAt env k = 0 := by
  unfold decisionAt
  apply bestIndexOf_eq_of
  · norm_num [NUM_CACHE_LINES, UINT8_MAX]
  · intro j _
    rw [sumThrough_timeZero env ht, sumThrough_timeZero env ht]
    by_cases hj : j = 0
    · subst hj; exact le_refl _
    · simp only [if_pos rfl, if_neg hj]
      positivity
  · intro j _ _
    omega

/-- Accumulated sums of `env4` at the start of attempt `1`. -/
lemma sumThrough_env4_1 (i : ℕ) : sumThrough env4 1 i = if i = 0 then 0 else 20 := by
  rw [sumThrough_apply]
  have h1 : List.range 1 = [0] := rfl
  rw [h1, List.map_cons, List.map_nil, List.sum_cons, List.sum_nil, add_zero]
  by_cases hi : i = 0
  · subst hi
    have h2 : (fun iter => env4.time 0 iter 0) = fun _ => (0 : ℚ) := by
      funext iter; simp [env4, time4]
    rw [h2, list_sum_const, mul_zero, if_pos rfl]
  · have h2 : (fun iter => env4.time 0 iter i) = fun _ => (1 : ℚ) := by
      funext iter; simp [env4, time4, hi]
    rw [h2, list_sum_const, if_neg hi]
    simp [ITERATIONS]

/-- Accumulated sums of `env4` at the start of attempt `2`. -/
lemma sumThrough_env4_2 (i : ℕ) :
    sumThrough env4 2 i = if i = 0 then 40 else if i = 200 then 20 else 40 := by
  rw [show (2 : ℕ) = 1 + 1 from rfl, sumThrough_succ, attemptSum_apply, sumThrough_env4_1]
  by_cases hi : i = 0
  · subst hi
    have h2 : (fun iter => env4.time 1 iter 0) = fun _ => (2 : ℚ) := by
      funext iter; simp [env4, time4]
    rw [h2, list_sum_const, if_pos rfl, if_pos rfl]
    simp [ITERATIONS]
    norm_num
  · by_cases hi2 : i = 200
    · subst hi2
      have h2 : (fun iter => env4.time 1 iter 200) = fun _ => (0 : ℚ) := by
        funext iter; simp [env4, time4]
      rw [h2, list_sum_const, mul_zero]
      norm_num
    · have h2 : (fun iter => env4.time 1 iter i) = fun _ => (1 : ℚ) := by
        funext iter; simp [env4, time4, hi, hi2]
      rw [h2, list_sum_const, if_neg hi, if_neg hi, if_neg hi2]
      simp [ITERATIONS]
      norm_num

/-- Attempt `0` of `env4` decides `0`. -/
lemma decisionAt_env4_0 : decisionAt env4 0 = 0 := by
  unfold decisionAt
  apply bestIndexOf_eq_of
  · norm_num [NUM_CACHE_LINES, UINT8_MAX]
  · intro j _
    rw [sumThrough_env4_1, sumThrough_env4_1]
    by_cases hj : j = 0
    · subst hj; exact le_refl _
    · simp only [if_pos rfl, if_neg hj]
      norm_num
  · intro j _ _
    omega

/-- Attempt `1` of `env4` decides `200` (on the accumulated sums). -/
lemma decisionAt_env4_1 : decisionAt env4 1 = 200 := by
  unfold decisionAt
  apply bestIndexOf_eq_of
  · norm_num [NUM_CACHE_LINES, UINT8_MAX]
  · intro j _
    rw [sumThrough_env4_2, sumThrough_env4_2]
    norm_num
    by_cases hj : j = 0
    · subst hj; norm_num
    · by_cases hj2 : j = 200
      · subst hj2; norm_num
      · simp only [if_neg hj, if_neg hj2]
        norm_num
  · intro j _ hje
    rw [sumThrough_env4_2, sumThrough_env4_2] at hje
    norm_num at hje
    by_cases hj : j = 0
    · subst hj; norm_num at hje
    · by_cases hj2 : j = 200
      · omega
      · rw [if_neg hj, if_neg hj2] at hje
        norm_num at hje

/-! ### `uint64_t` subtraction under monotonic ticks -/

/-- For in-range monotonic tick counts the wrapped subtraction is exact. -/
lemma uint64_sub_wrap (s now : ℕ) (h1 : s ≤ now) (h2 : now < UINT64_MOD) :
    (now + UINT64_MOD - s) % UINT64_MOD = now - s := by
  have hM : UINT64_MOD = 18446744073709551616 := by norm_num [UINT64_MOD]
  rw [hM]
  omega

/-! ## The claims -/

/-- Claim C1 (amended): the timing-sample vector is zeroed exactly once, by
the `calloc` before the retry loop, so it is all-zero at the start of the
FIRST attempt only; at the start of every later attempt it carries the sums
accumulated by all earlier attempts' iterations — it is not reset per
attempt. -/
theorem c1_sum_zeroed_once_then_carried (env : Env) :
    (∀ i, sumThrough env 0 i = 0) ∧
    (∀ k i, sumThrough env (k + 1) i
      = sumThrough env k i
        + ((List.range ITERATIONS).map (fun iter => env.time k iter i)).sum) := by
  constructor
  · intro i; rfl
  · intro k i
    rw [sumThrough_succ, attemptSum_apply]

/-- Claim C1 counterexample: under the `envZero` oracle the run retries all
`RETRIES_IF_ZERO` attempts (so attempt `1` is taken), yet the vector at the
start of attempt `1` has entry `1` equal to `20`, not `0`: attempt `0`'s
elapsed time is carried into attempt `1`'s sums, refuting the claimed
per-attempt reset. -/
theorem c1_counterexample :
    (inferb envZero 0 memC).attempts = RETRIES_IF_ZERO ∧
    sumThrough envZero 1 1 = 20 ∧ (20 : ℚ) ≠ 0 := by
  refine ⟨?_, ?_, by norm_num⟩
  · rw [inferb_eq]
    exact (inferbAux_all_zero envZero 0 (memC 0) RETRIES_IF_ZERO 0 0
      (fun j _ => decisionAt_timeZero envZero rfl (0 + j))).1
  · rw [sumThrough_timeZero envZero rfl]
    norm_num

/-- Claim C2: `inferb` (total by construction) performs at most
`RETRIES_IF_ZERO` attempts and always returns a byte value
(`bestIndex < NUM_CACHE_LINES`); if every attempt's decision is `0` it
performs exactly `RETRIES_IF_ZERO` attempts and returns `0`. -/
theorem c2_retry_ceiling (env : Env) (addr : ℕ) (mem : ℕ → Fin 256) :
    (inferb env addr mem).attempts ≤ RETRIES_IF_ZERO ∧
    (inferb env addr mem).bestIndex < NUM_CACHE_LINES ∧
    ((∀ k, k < RETRIES_IF_ZERO → decisionAt env k = 0) →
      (inferb env addr mem).attempts = RETRIES_IF_ZERO ∧
      (inferb env addr mem).bestIndex = 0) := by
  refine ⟨?_, ?_, ?_⟩
  · rw [inferb_eq]
    exact inferbAux_attempts_le env addr (mem addr) RETRIES_IF_ZERO 0 0 _
  · rw [inferb_eq]
    exact inferbAux_bestIndex_lt env addr (mem addr) RETRIES_IF_ZERO 0 0 _
      (by norm_num [NUM_CACHE_LINES, UINT8_MAX])
  · intro h
    rw [inferb_eq]
    have hall := inferbAux_all_zero env addr (mem addr) RETRIES_IF_ZERO 0 0
      (fun j hj => by rw [Nat.zero_add]; exact h j hj)
    refine ⟨hall.1, ?_⟩
    rw [hall.2]
    norm_num [RETRIES_IF_ZERO]

/-- Claim C2 witness: under the `envZero` oracle every decision is `0`, so
the run performs exactly `RETRIES_IF_ZERO` attempts and returns `0`. -/
theorem c2_witness :
    (inferb envZero 3 memC).attempts = RETRIES_IF_ZERO ∧
    (inferb envZero 3 memC).bestIndex = 0 :=
  (c2_retry_ceiling envZero 3 memC).2.2 (fun k _ => decisionAt_timeZero envZero rfl k)

/-- Claim C3: the decision scan selects an index attaining the minimum of
the sample vector, with the lowest index winning any tie (strict less-than
comparison), and in particular a vector whose global minimum is attained
exactly on the tied slots `5` and `9` decides `5`. -/
theorem c3_strict_min_lowest_wins (prev : ℕ) (s : ℕ → ℚ) :
    (∀ j, j < NUM_CACHE_LINES → s (bestIndexOf prev s) ≤ s j) ∧
    (∀ j, j < NUM_CACHE_LINES → s j = s (bestIndexOf prev s) → bestIndexOf prev s ≤ j) ∧
    ((∀ j, j < NUM_CACHE_LINES → j ≠ 5 → j ≠ 9 → s 5 < s j) → s 9 = s 5 →
      bestIndexOf prev s = 5) := by
  refine ⟨(bestIndexOf_spec prev s).2.1, (bestIndexOf_spec prev s).2.2, ?_⟩
  intro hmin59 htie59
  apply bestIndexOf_eq_of
  · norm_num [NUM_CACHE_LINES, UINT8_MAX]
  · intro j hj
    by_cases h5 : j = 5
    · subst h5; exact le_refl _
    · by_cases h9 : j = 9
      · subst h9; exact le_of_eq htie59.symm
      · exact le_of_lt (hmin59 j hj h5 h9)
  · intro j hj hje
    by_cases h5 : j = 5
    · omega
    · by_cases h9 : j = 9
      · omega
      · exact absurd hje (ne_of_gt (hmin59 j hj h5 h9))

/-- Claim C3 witness: on the concrete vector tied at `5` and `9` the scan
selects `5`. -/
theorem c3_witness : s59 9 = s59 5 ∧ bestIndexOf 0 s59 = 5 :=
  ⟨by norm_num [s59], (c3_strict_min_lowest_wins 0 s59).2.2
    (fun j _ h5 h9 => by simp [s59, h5, h9]) (by norm_num [s59])⟩

/-- Claim C4: the first attempt whose decision is a non-zero value `v` makes
`inferb` return `v` immediately, after exactly that many attempts and no
more. -/
theorem c4_early_exit_on_nonzero (env : Env) (addr : ℕ) (mem : ℕ → Fin 256) (j v : ℕ)
    (hj : j < RETRIES_IF_ZERO) (hz : ∀ i, i < j → decisionAt env i = 0)
    (hv : decisionAt env j = v) (hv0 : v ≠ 0) :
    (inferb env addr mem).bestIndex = v ∧ (inferb env addr mem).attempts = j + 1 := by
  rw [inferb_eq]
  have h := inferbAux_first_nonzero env addr (mem addr) j RETRIES_IF_ZERO 0 0 hj
    (fun i hi => by rw [Nat.zero_add]; exact hz i hi)
    (by rw [Nat.zero_add, hv]; exact hv0)
  rw [Nat.zero_add, hv] at h
  exact h

/-- Claim C4 witness: under `env4`, attempt `0` decides `0` and attempt `1`
decides `200`, so `inferb` returns `200` after exactly `2` attempts. -/
theorem c4_witness :
    (inferb env4 0 memC).bestIndex = 200 ∧ (inferb env4 0 memC).attempts = 2 :=
  c4_early_exit_on_nonzero env4 0 memC 1 200 (by norm_num [RETRIES_IF_ZERO])
    (fun i hi => by
      have h0 : i = 0 := by omega
      subst h0
      exact decisionAt_env4_0)
    decisionAt_env4_1 (by norm_num)

/-- Claim C5 (amended): `inferb` performs no check on the probe-array
allocation.  When every `malloc` fails, the measurement still proceeds on
the `NULL`-based array (the very first memory event is the cache flush of
address range `[0, ARRAY_SIZE)`), the retry loop still runs at least one
full attempt, and a plain byte value is returned — no resource error is
propagated (the interface has no error channel at all). -/
theorem c5_alloc_failure_ignored (time : ℕ → ℕ → ℕ → ℚ) (addr : ℕ) (mem : ℕ → Fin 256) :
    ((inferb ⟨time, fun _ _ => none⟩ addr mem).trace).head?
        = some (MemEvent.flushRange 0 ARRAY_SIZE) ∧
    1 ≤ (inferb ⟨time, fun _ _ => none⟩ addr mem).attempts ∧
    (inferb ⟨time, fun _ _ => none⟩ addr mem).bestIndex < NUM_CACHE_LINES := by
  refine ⟨?_, ?_, ?_⟩
  · rw [inferb_eq]
    exact inferbAux_trace_head ⟨time, fun _ _ => none⟩ addr (mem addr) 49 0 0 _
  · rw [inferb_eq]
    exact inferbAux_attempts_pos ⟨time, fun _ _ => none⟩ addr (mem addr) 49 0 0 _
  · rw [inferb_eq]
    exact inferbAux_bestIndex_lt ⟨time, fun _ _ => none⟩ addr (mem addr) RETRIES_IF_ZERO 0 0 _
      (by norm_num [NUM_CACHE_LINES, UINT8_MAX])

/-- Claim C5 counterexample: with every allocation failing (`envFail`),
`inferb` does NOT stop or propagate an error: it proceeds with the
measurement on the `NULL` array (first event: flush of `[0, ARRAY_SIZE)`),
retries through all `RETRIES_IF_ZERO` attempts and returns the ordinary
byte value `0` — refuting "does not proceed … propagated to the caller as an
unrecoverable resource error". -/
theorem c5_counterexample :
    (inferb envFail 7 memC).attempts = RETRIES_IF_ZERO ∧
    (inferb envFail 7 memC).bestIndex = 0 ∧
    ((inferb envFail 7 memC).trace).head? = some (MemEvent.flushRange 0 ARRAY_SIZE) := by
  refine ⟨?_, ?_, ?_⟩
  · rw [inferb_eq]
    exact (inferbAux_all_zero envFail 7 (memC 7) RETRIES_IF_ZERO 0 0
      (fun j _ => decisionAt_timeZero envFail rfl (0 + j))).1
  · rw [inferb_eq]
    have h := (inferbAux_all_zero envFail 7 (memC 7) RETRIES_IF_ZERO 0 0
      (fun j _ => decisionAt_timeZero envFail rfl (0 + j))).2
    rw [h]
    norm_num [RETRIES_IF_ZERO]
  · rw [inferb_eq]
    exact inferbAux_trace_head envFail 7 (memC 7) 49 0 0 _

/-- Claim C6: the probe array has exactly `256` slots; distinct slots'
distinguishing bytes (at offset `i * SPACING` for slot `i`) lie at least
`SPACING` bytes apart, their byte ranges are disjoint, and they fall on
distinct cache lines. -/
theorem c6_probe_layout_disjoint :
    NUM_CACHE_LINES = 256 ∧
    ∀ base i j, i < NUM_CACHE_LINES → j < NUM_CACHE_LINES → i ≠ j →
      slotAddr base i = base + i * SPACING ∧
      SPACING ≤ Nat.dist (slotAddr base i) (slotAddr base j) ∧
      Disjoint (slotBytes base i) (slotBytes base j) ∧
      cacheLineIndex (slotAddr base i) ≠ cacheLineIndex (slotAddr base j) := by
  have hsz : sizeof_cache_line_t = SPACING := by
    norm_num [sizeof_cache_line_t, SPACING]
  refine ⟨by norm_num [NUM_CACHE_LINES, UINT8_MAX], ?_⟩
  intro base i j _ _ hij
  refine ⟨by rw [slotAddr, hsz], ?_, ?_, ?_⟩
  · rw [slotAddr, slotAddr, hsz]
    simp only [Nat.dist, SPACING]
    omega
  · rw [Set.disjoint_left]
    intro x hx hx2
    simp only [slotBytes, Set.mem_Ico, slotAddr, hsz, SPACING] at hx hx2
    omega
  · simp only [cacheLineIndex, slotAddr, hsz, SPACING, CACHE_LINE_SIZE]
    omega

/-- Claim C6 witness: instantiated at `base = 0`, slots `0` and `1`. -/
theorem c6_witness :
    slotAddr 0 0 = 0 + 0 * SPACING ∧
    SPACING ≤ Nat.dist (slotAddr 0 0) (slotAddr 0 1) ∧
    Disjoint (slotBytes 0 0) (slotBytes 0 1) ∧
    cacheLineIndex (slotAddr 0 0) ≠ cacheLineIndex (slotAddr 0 1) :=
  c6_probe_layout_disjoint.2 0 0 1 (by norm_num [NUM_CACHE_LINES, UINT8_MAX])
    (by norm_num [NUM_CACHE_LINES, UINT8_MAX]) (by norm_num)

/-- Claim C7: for a handle started at tick `s` with rate `numer / denom`,
an elapsed-time query at a later in-range tick `now` returns
`(now - s) * rate` nanoseconds, the rate is exactly the captured conversion
rate, and the query leaves the handle unchanged so it may be queried
repeatedly with the same results. -/
theorem c7_elapsed_formula (s numer denom now : ℕ) (h1 : s ≤ now) (h2 : now < UINT64_MOD) :
    (timeElapsedQ (startTimer s numer denom) now).1
        = ((now : ℚ) - (s : ℚ)) * (startTimer s numer denom).rate ∧
    (startTimer s numer denom).rate = (numer : ℚ) / (denom : ℚ) ∧
    (timeElapsedQ (startTimer s numer denom) now).2 = startTimer s numer denom ∧
    ∀ n2, (timeElapsedQ ((timeElapsedQ (startTimer s numer denom) now).2) n2).1
        = (timeElapsedQ (startTimer s numer denom) n2).1 := by
  refine ⟨?_, rfl, rfl, fun n2 => rfl⟩
  show timeElapsed (startTimer s numer denom) now = _
  rw [timeElapsed]
  have hs : (startTimer s numer denom).start = s := rfl
  rw [hs, uint64_sub_wrap s now h1 h2, Nat.cast_sub h1]

/-- Claim C7 witness: a handle started at tick `100` with rate `3 / 1`,
queried at tick `250`. -/
theorem c7_witness :
    (timeElapsedQ (startTimer 100 3 1) 250).1
      = (((250 : ℕ) : ℚ) - ((100 : ℕ) : ℚ)) * (startTimer 100 3 1).rate :=
  (c7_elapsed_formula 100 3 1 250 (by norm_num) (by norm_num [UINT64_MOD])).1

/-- Claim C8: for a handle with non-negative rate and a monotonic in-range
tick source, elapsed-time queries at increasing tick counts return
non-decreasing values. -/
theorem c8_elapsed_monotone (t : timer) (n1 n2 : ℕ) (hr : 0 ≤ t.rate)
    (h0 : t.start ≤ n1) (h12 : n1 ≤ n2) (h2 : n2 < UINT64_MOD) :
    timeElapsed t n1 ≤ timeElapsed t n2 := by
  rw [timeElapsed, timeElapsed,
    uint64_sub_wrap t.start n1 h0 (lt_of_le_of_lt h12 h2),
    uint64_sub_wrap t.start n2 (le_trans h0 h12) h2]
  apply mul_le_mul_of_nonneg_right _ hr
  exact_mod_cast Nat.sub_le_sub_right h12 t.start

/-- Claim C8 witness: a handle started at tick `10` with rate `1`, queried
at ticks `20` and `30`. -/
theorem c8_witness : timeElapsed ⟨10, 1⟩ 20 ≤ timeElapsed ⟨10, 1⟩ 30 :=
  c8_elapsed_monotone ⟨10, 1⟩ 20 30 (by norm_num) (by norm_num) (by norm_num)
    (by norm_num [UINT64_MOD])

/-- Claim C9: `inferb` never stores through caller-visible memory — its
whole event trace contains no `writeMem` (in particular none at the secret
address), so the byte at the secret address (and every other address) after
the call equals the byte before it; the secret address is only read. -/
theorem c9_secret_read_only (env : Env) (addr : ℕ) (mem : ℕ → Fin 256) :
    ((inferb env addr mem).trace).all (fun e => !(isMemWrite e)) = true ∧
    runTrace mem (inferb env addr mem).trace = mem := by
  have h := inferbAux_trace_no_memwrite env addr (mem addr) RETRIES_IF_ZERO 0 0 (fun _ => 0)
  exact ⟨h, runTrace_no_memwrite _ mem h⟩

/-- Claim C10: the secret-dependent access indexes a valid slot: the byte
read from the secret address is always strictly below
`NUM_CACHE_LINES = UINT8_MAX + 1 = 256`, so the lookup of its slot address
succeeds — in bounds — and lands on slot `secret`'s distinguishing byte. -/
theorem c10_secret_index_in_bounds (mem : ℕ → Fin 256) (addr base : ℕ) :
    NUM_CACHE_LINES = UINT8_MAX + 1 ∧
    (mem addr).val < NUM_CACHE_LINES ∧
    ((probeSlotAddrs base)[(mem addr).val]?).isSome = true ∧
    (probeSlotAddrs base).getD (mem addr).val 0 = slotAddr base (mem addr).val := by
  have hlt : (mem addr).val < NUM_CACHE_LINES := by
    simp [NUM_CACHE_LINES, UINT8_MAX]
  have hget : (probeSlotAddrs base)[(mem addr).val]?
      = some (slotAddr base (mem addr).val) := by
    simp [probeSlotAddrs, List.getElem?_range, hlt]
  refine ⟨rfl, hlt, ?_, ?_⟩
  · rw [hget]; rfl
  · rw [List.getD_eq_getElem?_getD, hget]; rfl

end Inferb
